import Mathlib

/-!
Shallow embedding of src/app.py (bonificacion-ief): a fetch / clean /
report pipeline over tabular records from datos.gob.cl, with a region
filtered interactive view.

Modelling conventions:
* A pandas cell is `Cell`: `na` (None / NaN / pd.NA), `str`, or `num`
  (the program only parses, adds and sums decimal numbers, so machine
  floats are modelled as rationals).
* A DataFrame is a column-ordered association list `Table` from column
  name to the list of cells of that column; row order is the list order
  inside each column.
* Python single-character `str.replace` is a character map (or filter,
  when the replacement is empty); `str.strip` strips Python whitespace,
  which includes U+00A0.
* Python `float(s)` is `pyFloat?` over the sign / digits / dot /
  exponent grammar; "inf", "nan" and underscore separated literals are
  outside the modelled domain and return `none` (no claim reaches them).
* `str.lower` is modelled per character on ASCII; the characters the
  program compares after lowering are all ASCII.
* `str(x)` for a numeric cell is `pyNumStr`; integers print exactly as
  in Python, non-integers print with a solidus (the pipeline only ever
  stringifies numeric cells in mixed object columns, which no claim
  exercises at value level; only character-class facts are used).
-/

/- Batteries marks the rational operations irreducible, which blocks
`decide` on concrete tables; restore the default transparency. -/
attribute [local semireducible] Rat.add Rat.mul Rat.inv

/-- A pandas cell: missing (None / NaN / pd.NA), a string, or a number. -/
inductive Cell
  | na : Cell
  | str (s : String) : Cell
  | num (q : ℚ) : Cell
deriving DecidableEq

/-- A DataFrame column: the cells in row order. -/
abbrev Col := List Cell

/-- A DataFrame: association list from column name to column, in column
order.  Duplicate names can occur (pandas allows them). -/
abbrev Table := List (String × Col)

def isStrCell : Cell → Bool
  | Cell.str _ => true
  | _ => false

def isNaCell : Cell → Bool
  | Cell.na => true
  | _ => false

/-- Column lookup, `df[c]` for a unique label: first binding wins. -/
def getCol (t : Table) (c : String) : Col :=
  match t.find? (fun p => p.1 == c) with
  | some p => p.2
  | none => []

/-- `c in df.columns`. -/
def hasCol (t : Table) (c : String) : Bool :=
  t.any (fun p => p.1 == c)

/-- Row selection by boolean mask, `df[mask]`. -/
def filterMask (mask : List Bool) (col : Col) : Col :=
  (List.zip mask col).filterMap (fun p => if p.1 then some p.2 else none)

def filterRows (t : Table) (mask : List Bool) : Table :=
  t.map (fun p => (p.1, filterMask mask p.2))

/-- Removing row `i` from every column (used to state that a row does or
does not contribute to an aggregate). -/
def dropRow (t : Table) (i : ℕ) : Table :=
  t.map (fun p => (p.1, p.2.eraseIdx i))

/-- Python `str.isspace` character class (the members a `str.strip` with
no argument removes); note U+00A0 is included. -/
def isPySpace (c : Char) : Bool :=
  let n := c.toNat
  (9 ≤ n && n ≤ 13) || n = 28 || n = 29 || n = 30 || n = 31 || n = 32 ||
  n = 133 || n = 160 || n = 5760 || (8192 ≤ n && n ≤ 8202) || n = 8232 ||
  n = 8233 || n = 8239 || n = 8287 || n = 12288

/-- Python `s.strip()`. -/
def pyStrip (s : String) : String :=
  String.mk (((s.toList.dropWhile isPySpace).reverse.dropWhile isPySpace).reverse)

/-- Python `s.lower()`, per character (ASCII). -/
def lowerStr (s : String) : String :=
  String.mk (s.toList.map Char.toLower)

def digitChar (n : ℕ) : Char := Char.ofNat (48 + n)

/-- Decimal digits of a positive natural, most significant first. -/
def natDigs (n : ℕ) : List Char :=
  if h : n = 0 then []
  else natDigs (n / 10) ++ [digitChar (n % 10)]
decreasing_by exact Nat.div_lt_self (Nat.pos_of_ne_zero h) (by norm_num)

/-- Python `str` of a natural number. -/
def natStr (n : ℕ) : String :=
  if n = 0 then "0" else String.mk (natDigs n)

/-- Python `str` of an integer. -/
def intStr (i : ℤ) : String :=
  if i < 0 then "-" ++ natStr i.natAbs else natStr i.natAbs

/-- Python `str(x)` for a numeric cell (exact for integers; non-integral
rationals print with a solidus, see the module conventions). -/
def pyNumStr (q : ℚ) : String :=
  if q.den = 1 then intStr q.num else intStr q.num ++ "/" ++ natStr q.den

/-- The character class `[a-z0-9_]` kept by the regex of
`normalize_cols` (app.py line 33). -/
def allowedChar (c : Char) : Bool :=
  ('a' ≤ c && c ≤ 'z') || ('0' ≤ c && c ≤ '9') || c = '_'

/-- One column name through `normalize_cols` (app.py lines 32 to 33):
lowercase, spaces to underscores, drop everything outside `[a-z0-9_]`. -/
def normalize_col (c : String) : String :=
  String.mk (((c.toList.map Char.toLower).map
    (fun ch => if ch = ' ' then '_' else ch)).filter allowedChar)

def normalize_cols (cs : List String) : List String :=
  cs.map normalize_col

/-- Numeric value of a digit run. -/
def digitsVal (l : List Char) : ℚ :=
  l.foldl (fun acc c => acc * 10 + ((c.toNat - 48 : ℕ) : ℚ)) 0

def digitsNat (l : List Char) : ℕ :=
  l.foldl (fun acc c => acc * 10 + (c.toNat - 48)) 0

def readSign : List Char → ℚ × List Char
  | [] => (1, [])
  | c :: l =>
      if c = '+' then (1, l) else if c = '-' then (-1, l) else (1, c :: l)

/-- Exponent part after the letter e of a float literal. -/
def readExp (cs : List Char) : Option ℤ :=
  let p : ℤ × List Char :=
    match cs with
    | [] => (1, [])
    | c :: l =>
        if c = '+' then (1, l) else if c = '-' then (-1, l) else (1, c :: l)
  let q := p.2.span Char.isDigit
  if q.1 = [] || q.2 ≠ [] then none
  else some (p.1 * (digitsNat q.1 : ℤ))

/-- Python `float(s)` on the decimal grammar: optional sign, digits,
optional dot and fraction digits, optional exponent; at least one
mantissa digit.  Returns `none` where Python raises ValueError. -/
def pyFloat? (s : String) : Option ℚ :=
  let sg := readSign s.toList
  let ipr := sg.2.span Char.isDigit
  match ipr.2 with
  | [] => if ipr.1 = [] then none else some (sg.1 * digitsVal ipr.1)
  | '.' :: r2 =>
      let fpr := r2.span Char.isDigit
      if ipr.1 = [] && fpr.1 = [] then none
      else
        let mant : ℚ := digitsVal ipr.1 + digitsVal fpr.1 / (10 : ℚ) ^ fpr.1.length
        match fpr.2 with
        | [] => some (sg.1 * mant)
        | 'e' :: r4 => (readExp r4).map (fun e => sg.1 * mant * (10 : ℚ) ^ e)
        | 'E' :: r4 => (readExp r4).map (fun e => sg.1 * mant * (10 : ℚ) ^ e)
        | _ => none
  | 'e' :: r4 =>
      if ipr.1 = [] then none
      else (readExp r4).map (fun e => sg.1 * digitsVal ipr.1 * (10 : ℚ) ^ e)
  | 'E' :: r4 =>
      if ipr.1 = [] then none
      else (readExp r4).map (fun e => sg.1 * digitsVal ipr.1 * (10 : ℚ) ^ e)
  | _ => none

/-- The literal set of `to_float_cl` (app.py line 39); membership is
tested on the stripped string, case sensitively. -/
def sentinelsTF : List String := ["", "-", "nan", "none", "null"]

/-- Python `str(x)` of a non-missing cell. -/
def pyStrAstype : Cell → String
  | Cell.na => "nan"
  | Cell.str s => s
  | Cell.num q => pyNumStr q

/-- Body of `to_float_cl` after the `pd.isna` test (app.py lines 38 to
45): strip, sentinel test, remove every dot, comma to dot, `float`,
ValueError to missing. -/
def to_float_str (s0 : String) : Cell :=
  let s := pyStrip s0
  if s ∈ sentinelsTF then Cell.na
  else
    match pyFloat? (String.mk ((s.toList.filter (fun c => c ≠ '.')).map
        (fun c => if c = ',' then '.' else c))) with
    | some v => Cell.num v
    | none => Cell.na

/-- `to_float_cl` (app.py lines 35 to 45). -/
def to_float_cl : Cell → Cell
  | Cell.na => Cell.na
  | Cell.str s => to_float_str s
  | Cell.num q => to_float_str (pyNumStr q)

/-- Equality of pipeline results is decidable (used to evaluate the
embedding on concrete inputs). -/
instance : DecidableEq (Except String Table) := fun a b =>
  match a, b with
  | Except.ok x, Except.ok y => decidable_of_iff (x = y) (by simp)
  | Except.error x, Except.error y => decidable_of_iff (x = y) (by simp)
  | Except.ok _, Except.error _ => isFalse (by simp)
  | Except.error _, Except.ok _ => isFalse (by simp)

/-- A JSON value as produced by the json parsing of the fetched body. -/
inductive JVal
  | null : JVal
  | str (s : String) : JVal
  | num (q : ℚ) : JVal
  | bool (b : Bool) : JVal
  | arr (xs : List JVal) : JVal
  | obj (kvs : List (String × JVal)) : JVal

/-- Python dict lookup on a parsed JSON object (for duplicate keys the
json module keeps the last value). -/
def jget (kvs : List (String × JVal)) (k : String) : Option JVal :=
  ((kvs.filter (fun p => p.1 == k)).getLast?).map (fun p => p.2)

def scalarCell? : JVal → Option Cell
  | JVal.null => some Cell.na
  | JVal.str s => some (Cell.str s)
  | JVal.num q => some (Cell.num q)
  | _ => none

/-- One raw record: field name to cell, in insertion order. -/
abbrev RawRec := List (String × Cell)

def asRecord? : JVal → Option RawRec
  | JVal.obj kvs => kvs.mapM (fun p => (scalarCell? p.2).map (fun c => (p.1, c)))
  | _ => none

def asRecordList? : JVal → Option (List RawRec)
  | JVal.arr xs => xs.mapM asRecord?
  | _ => none

def dedupFirstAux {α : Type} [DecidableEq α] (seen : List α) : List α → List α
  | [] => []
  | a :: l =>
      if a ∈ seen then dedupFirstAux seen l
      else a :: dedupFirstAux (a :: seen) l

/-- Distinct elements keeping the first appearance order (the order
`pd.unique` and the DataFrame column union use). -/
def dedupFirst {α : Type} [DecidableEq α] (l : List α) : List α :=
  dedupFirstAux [] l

def lookupLast (r : RawRec) (n : String) : Option Cell :=
  ((r.filter (fun p => p.1 == n)).getLast?).map (fun p => p.2)

/-- `pd.DataFrame` of a list of record dicts: the columns are the keys in
first appearance order; a key absent from a record gives a missing cell. -/
def buildTable (recs : List RawRec) : Table :=
  (dedupFirst ((recs.map (fun r => r.map (fun p => p.1))).flatten)).map
    (fun n => (n, recs.map (fun r => (lookupLast r n).getD Cell.na)))

/-- Object dtype of a constructed column: at least one string, or only
missing values (a None-only column); a column with at least one number
and no string gets a float dtype instead.  The classification is stable
across the cleaning steps that precede each use of it. -/
def objectLike (col : Col) : Bool :=
  col.any isStrCell || col.all isNaCell

/-- The blank markers of the text cleaning step (app.py line 62),
compared after lowering. -/
def sentinelsClean : List String := ["", "none", "null", "nan"]

/-- One cell of the text cleaning `astype(str).str.strip()` then mask
(app.py lines 58 to 62); `astype(str)` writes a missing cell as a text
the mask immediately sends back to missing. -/
def cleanTextCell (c : Cell) : Cell :=
  let s := pyStrip (pyStrAstype c)
  if lowerStr s ∈ sentinelsClean then Cell.na else Cell.str s

def cleanTextEntry (p : String × Col) : String × Col :=
  (p.1, if objectLike p.2 then p.2.map cleanTextCell else p.2)

def cleanText (t : Table) : Table := t.map cleanTextEntry

/-- One cell of the key cleaning (app.py lines 65 to 67):
`astype("string")` keeps missing as missing and stringifies the rest,
then the U+00A0 character is removed everywhere and the result
stripped. -/
def cleanKeyCell : Cell → Cell
  | Cell.na => Cell.na
  | c => Cell.str (pyStrip (String.mk
      ((pyStrAstype c).toList.filter (fun ch => ch ≠ ' '))))

def keyCols : List String := ["comuna", "region"]

def cleanKeysEntry (p : String × Col) : String × Col :=
  if p.1 ∈ keyCols then (p.1, p.2.map cleanKeyCell) else p

def cleanKeys (t : Table) : Table := t.map cleanKeysEntry

/-- The substrings that make a normalized column name a numeric
conversion candidate (app.py line 70). -/
def candidateTokens : List String := ["mto", "monto", "hombre", "mujer", "no", "cantidad"]

def leadsWith : List Char → List Char → Bool
  | [], _ => true
  | _ :: _, [] => false
  | a :: xs, b :: ys => a == b && leadsWith xs ys

def containsSub (hay needle : String) : Bool :=
  hay.toList.tails.any (fun t => leadsWith needle.toList t)

def isCandidate (n : String) : Bool :=
  candidateTokens.any (fun k => containsSub n k)

/-- Chilean numeric conversion of candidate columns (app.py lines 70 to
73): a candidate column of stringy dtype is mapped through
`to_float_cl`. -/
def convertNumericsEntry (p : String × Col) : String × Col :=
  if isCandidate p.1 && objectLike p.2 then (p.1, p.2.map to_float_cl) else p

def convertNumerics (t : Table) : Table := t.map convertNumericsEntry

def fillna0 (c : Cell) : Cell := if c = Cell.na then Cell.num 0 else c

/-- Cell addition as pandas column addition; adding a non-number raises
in pandas, modelled as missing (theorems only use it on numeric
columns). -/
def cellAdd : Cell → Cell → Cell
  | Cell.num a, Cell.num b => Cell.num (a + b)
  | _, _ => Cell.na

/-- Derived total column (app.py lines 76 to 77): added only when absent
and both gender amount columns are present. -/
def addMontoM (t : Table) : Table :=
  if !hasCol t "monto_m" && hasCol t "mtohombre" && hasCol t "mtomujer" then
    t ++ [("monto_m",
      List.zipWith (fun a b => cellAdd (fillna0 a) (fillna0 b))
        (getCol t "mtohombre") (getCol t "mtomujer"))]
  else t

/-- `records_to_df` (app.py lines 47 to 79), with raised exceptions as
`Except.error`:
* a non dict input, or a dict without a "result" key, returns the empty
  frame (line 48);
* `data["result"].get("records", [])` raises AttributeError when the
  result entry is not a dict (line 50);
* `pd.DataFrame(records)` raises when records is not a list of
  scalar-valued records (line 50);
* when two normalized labels collide, `df.columns` holds duplicates, so
  the cleaning loop's `df[c]` returns a two-column DataFrame and the
  `df[c].dtype` test on line 59 raises AttributeError: no frame with
  duplicate normalized labels is ever returned. -/
def records_to_df (data : JVal) : Except String Table :=
  match data with
  | JVal.obj kvs =>
    match jget kvs "result" with
    | none => Except.ok []
    | some res =>
      match res with
      | JVal.obj rkvs =>
        match asRecordList? ((jget rkvs "records").getD (JVal.arr [])) with
        | none => Except.error "DataFrame constructor not properly called"
        | some recs =>
          let raw := buildTable recs
          if raw = [] then Except.ok [] else
          let t1 := raw.map (fun p => (normalize_col p.1, p.2))
          if (t1.map Prod.fst).Nodup then
            Except.ok (addMontoM (convertNumerics (cleanKeys (cleanText t1))))
          else Except.error "AttributeError: dtype of a duplicated label selection"
      | _ => Except.error "AttributeError: result has no attribute get"
  | _ => Except.ok []

/-- pandas numeric sum semantics of one cell: missing counts zero (sum
skips missing entries). -/
def q0 : Cell → ℚ
  | Cell.num q => q
  | _ => 0

def colSum (col : Col) : ℚ := (col.map q0).sum

/-- Men total of `console_report` (app.py line 91). -/
def console_th (t : Table) : ℚ :=
  if hasCol t "mtohombre" then colSum (getCol t "mtohombre") else 0

/-- Women total of `console_report` (app.py line 92). -/
def console_tm (t : Table) : ℚ :=
  if hasCol t "mtomujer" then colSum (getCol t "mtomujer") else 0

/-- Grand total of `console_report` (app.py line 93). -/
def console_tg (t : Table) : ℚ :=
  if hasCol t "monto_m" then colSum (getCol t "monto_m")
  else console_th t + console_tm t

/-- Code point lexicographic strict order on character lists (the string
order Python and pandas sort by). -/
def lexLt : List Char → List Char → Bool
  | [], [] => false
  | [], _ :: _ => true
  | _ :: _, [] => false
  | a :: xs, b :: ys =>
      if a.toNat < b.toNat then true
      else if b.toNat < a.toNat then false
      else lexLt xs ys

def strLt (a b : String) : Bool := lexLt a.toList b.toList

def insertAsc (a : String) : List String → List String
  | [] => [a]
  | b :: l => if strLt b a then b :: insertAsc a l else a :: b :: l

/-- Python `sorted` on strings (code point lexicographic, stable). -/
def sortStr : List String → List String
  | [] => []
  | a :: l => insertAsc a (sortStr l)

def strKeys (col : Col) : List String :=
  col.filterMap (fun c => match c with | Cell.str s => some s | _ => none)

/-- The group keys of `groupby` under its default key sort: the distinct
string values in ascending order. -/
def groupKeys (col : Col) : List String := sortStr (dedupFirst (strKeys col))

/-- Per group sum of the amount column (`groupby` sum: missing summands
are skipped, an all-missing group sums to zero). -/
def groupSum (ck mk : Col) (key : String) : ℚ :=
  colSum ((List.zip ck mk).filterMap
    (fun p => if p.1 = Cell.str key then some p.2 else none))

def insertDesc (x : String × ℚ) : List (String × ℚ) → List (String × ℚ)
  | [] => [x]
  | y :: l => if y.2 ≤ x.2 then x :: y :: l else y :: insertDesc x l

/-- `sort_values(ascending=False)` modelled as a stable descending sort
(ties keep the incoming, groupby-sorted, key order); numpy's default
introsort promises no stability, see the notes at claim C7. -/
def sortDesc : List (String × ℚ) → List (String × ℚ)
  | [] => []
  | x :: l => insertDesc x (sortDesc l)

/-- The grouped, still unsorted, ranking pairs: one pair per distinct
commune of the rows whose commune is present (`df_ok` of app.py lines 97
and 220 followed by `groupby("comuna").sum()`), keyed in the groupby key
order. -/
def rankPairs (t : Table) : List (String × ℚ) :=
  let ok := filterRows t ((getCol t "comuna").map (fun c => !(isNaCell c)))
  (groupKeys (getCol ok "comuna")).map
    (fun k => (k, groupSum (getCol ok "comuna") (getCol ok "monto_m") k))

/-- The commune ranking (app.py lines 96 to 103, 113 to 119 and 219 to
227): drop the rows with a missing commune, group by commune, sum the
total amount per group, sort descending by sum, keep the first `n`. -/
def rankComunas (t : Table) (n : ℕ) : List (String × ℚ) :=
  (sortDesc (rankPairs t)).take n

/-- Top ten ranking of the static report (app.py lines 96 to 103); the
report prints it only when both columns exist. -/
def console_top10 (t : Table) : List (String × ℚ) :=
  if hasCol t "comuna" && hasCol t "monto_m" then rankComunas t 10 else []

/-- Top twenty ranking of the interactive view (app.py lines 219 to
227). -/
def ui_top20 (t : Table) : List (String × ℚ) :=
  if hasCol t "comuna" && hasCol t "monto_m" then rankComunas t 20 else []

/-- The region code to name lookup (app.py lines 148 to 165). -/
def REGIONES_CHILE : List (String × String) := [
  ("1", "Tarapacá"), ("2", "Antofagasta"), ("3", "Atacama"),
  ("4", "Coquimbo"), ("5", "Valparaíso"), ("6", "O\x27Higgins"),
  ("7", "Maule"), ("8", "Biobío"), ("9", "La Araucanía"),
  ("10", "Los Lagos"), ("11", "Aysén"), ("12", "Magallanes"),
  ("13", "Metropolitana de Santiago"), ("14", "Los Ríos"),
  ("15", "Arica y Parinacota"), ("16", "Ñuble")]

/-- `str(x)` of a cell of a "string" dtype column (pd.NA prints in angle
brackets). -/
def astypeStrCell : Cell → String
  | Cell.na => "<NA>"
  | Cell.str s => s
  | Cell.num q => pyNumStr q

/-- The distinct region codes feeding the selector (app.py lines 185 to
188): drop missing, stringify, strip, distinct, drop a literal lowercase
"none", sort. -/
def regionCodes (t : Table) : List String :=
  sortStr ((dedupFirst ((getCol t "region").filterMap
    (fun c => if isNaCell c then none else some (pyStrip (pyStrAstype c))))).filter
      (fun x => lowerStr x ≠ "none"))

/-- Selector label of a region code (app.py line 189): name of the code
in the lookup, else the code prefixed by the region word. -/
def regionName (c : String) : String :=
  match REGIONES_CHILE.find? (fun p => p.1 == c) with
  | some p => p.2
  | none => "Región " ++ c

/-- The selector options (app.py line 190). -/
def regionOptions (t : Table) : List String :=
  "(todas)" :: (regionCodes t).map regionName

/-- The region filter (app.py lines 192 to 200): "(todas)" passes the
frame through; otherwise the code is recovered by reverse lookup of the
picked label in the name table, giving None for an unmapped label, and
the kept rows are those whose stripped stringified region cell equals
`str` of that recovered code. -/
def regionFilter (t : Table) (pick : String) : Table :=
  if pick = "(todas)" then t
  else
    let target :=
      match REGIONES_CHILE.find? (fun p => p.2 == pick) with
      | some p => p.1
      | none => "None"
    filterRows t ((getCol t "region").map
      (fun c => pyStrip (astypeStrCell c) == target))

/-- Every cell missing or numeric: the dtype the amount columns have in
the pipeline (pandas arithmetic on other cells raises). -/
def numericCol (col : Col) : Bool := col.all (fun c => !(isStrCell c))

/-- A one row table carrying the unmapped region code 99 (the code of
the region filter scenario of the specification). -/
def tRegion99 : Table := [("region", [Cell.str "99"]), ("monto_m", [Cell.num 7])]

/-- Two rows whose communes occur in the order bb then aa, with equal
totals. -/
def tTie : Table := [("comuna", [Cell.str "bb", Cell.str "aa"]),
  ("monto_m", [Cell.num 5, Cell.num 5])]

/-- The fetched body of the C9 counterexample: one record whose commune
is the word null broken by a non breaking space. -/
def inNbspNull : JVal := JVal.obj [("result", JVal.obj [("records",
  JVal.arr [JVal.obj [("comuna", JVal.str "nu ll")]])])]

/-- The witness frame: one row, men amount 100, women amount missing. -/
def tC4 : Table := [("mtohombre", [Cell.num 100]), ("mtomujer", [Cell.na])]

/-- Four rows over three distinct communes with distinct group totals. -/
def tC6 : Table := [
  ("comuna", [Cell.str "a", Cell.str "b", Cell.str "c", Cell.str "a"]),
  ("monto_m", [Cell.num 1, Cell.num 5, Cell.num 4, Cell.num 2])]

/-- The witness frame: the second row has a missing commune and amounts
7, 2 and 4. -/
def tC5 : Table := [
  ("comuna", [Cell.str "x", Cell.na]),
  ("monto_m", [Cell.num 5, Cell.num 7]),
  ("mtohombre", [Cell.num 1, Cell.num 2]),
  ("mtomujer", [Cell.na, Cell.num 4])]

/-- The witness body: two raw fields whose names normalize without
collision. -/
def dataC8 : JVal := JVal.obj [("result", JVal.obj [("records",
  JVal.arr [JVal.obj [("Mto Hombre", JVal.num 1),
    ("Comuna", JVal.str "x")]])])]

/-- The witness body: one record with a padded commune and a plain text
field. -/
def dataC9w : JVal := JVal.obj [("result", JVal.obj [("records",
  JVal.arr [JVal.obj [("comuna", JVal.str " Melipilla "),
    ("detalle", JVal.str "ok")]])])]

/-- C1 (code bug): the selector renders the unmapped code "99" as
"Región 99", but picking that label does not filter to the rows whose
region code is "99": the reverse name lookup of app.py line 199 yields
None for a label built by the fallback, so line 200 compares every
region cell with the text "None" and keeps nothing, although the table
holds a row with region code "99".  Selecting "(todas)" does pass the
table through unchanged. -/
theorem C1_unmapped_region_filter_bug :
    regionOptions tRegion99 = ["(todas)", "Región 99"] ∧
    getCol tRegion99 "region" = [Cell.str "99"] ∧
    regionFilter tRegion99 "Región 99" = [("region", []), ("monto_m", [])] ∧
    regionFilter tRegion99 "(todas)" = tRegion99 := by
  refine ⟨by decide, by decide, by decide, by decide⟩

/-- C2 (counterexample): a mapping whose "result" entry is not itself a
mapping makes `records_to_df` raise (the `.get` of app.py line 50 is an
attribute error on a non dict), instead of returning an empty frame. -/
theorem C2_counterexample :
    records_to_df (JVal.obj [("result", JVal.num 5)]) =
      Except.error "AttributeError: result has no attribute get" := by decide

/-- C2 (amended): `records_to_df` returns an empty frame, without
raising, for any input that is not a mapping or has no "result" entry;
but a mapping whose "result" entry is itself not a mapping raises (the
AttributeError of app.py line 50) instead of degrading to an empty
frame. -/
theorem C2_amended_shape_handling :
    (∀ data : JVal, (∀ kvs, data ≠ JVal.obj kvs) →
      records_to_df data = Except.ok []) ∧
    (∀ kvs, jget kvs "result" = none → records_to_df (JVal.obj kvs) = Except.ok []) ∧
    (∀ kvs res, jget kvs "result" = some res → (∀ rkvs, res ≠ JVal.obj rkvs) →
      ∃ e, records_to_df (JVal.obj kvs) = Except.error e) := by
  refine ⟨?_, ?_, ?_⟩
  · intro data h
    cases data with
    | obj kvs => exact absurd rfl (h kvs)
    | null => rfl
    | str s => rfl
    | num q => rfl
    | bool b => rfl
    | arr xs => rfl
  · intro kvs h
    simp only [records_to_df]
    split
    · rfl
    · rename_i r heq
      rw [h] at heq
      exact Option.noConfusion heq
  · intro kvs res hres h
    simp only [records_to_df]
    split
    · rename_i heq
      rw [hres] at heq
      exact Option.noConfusion heq
    · rename_i r heq
      rw [hres] at heq
      injection heq with heq2
      subst heq2
      cases res with
      | obj rkvs => exact absurd rfl (h rkvs)
      | null => exact ⟨_, rfl⟩
      | str s => exact ⟨_, rfl⟩
      | num q => exact ⟨_, rfl⟩
      | bool b => exact ⟨_, rfl⟩
      | arr xs => exact ⟨_, rfl⟩

theorem C2_amended_shape_handling_witness :
    records_to_df (JVal.num 3) = Except.ok [] ∧
    records_to_df (JVal.obj [("x", JVal.num 1)]) = Except.ok [] ∧
    ∃ e, records_to_df (JVal.obj [("result", JVal.arr [])]) = Except.error e := by
  refine ⟨C2_amended_shape_handling.1 (JVal.num 3) ?_,
          C2_amended_shape_handling.2.1 [("x", JVal.num 1)] ?_,
          C2_amended_shape_handling.2.2 [("result", JVal.arr [])] (JVal.arr []) ?_ ?_⟩
  · intro kvs h
    exact JVal.noConfusion h
  · rfl
  · rfl
  · intro rkvs h
    exact JVal.noConfusion h

theorem to_float_str_na_or_num (s : String) :
    to_float_str s = Cell.na ∨ ∃ q : ℚ, to_float_str s = Cell.num q := by
  simp only [to_float_str]
  split
  · exact Or.inl rfl
  · split
    · exact Or.inr ⟨_, rfl⟩
    · exact Or.inl rfl

/-- C3: Chilean locale numeric parsing: "1.234,56" parses to 1234.56 and
"0,5" to 0.5; each of "", "-", "null" and a missing input yields the
missing marker; and on every input the result is a number or the missing
marker, never a raised error (the ValueError of `float` is the only
reachable exception and app.py lines 42 to 45 catch it). -/
theorem C3_to_float_cl_parsing :
    to_float_cl (Cell.str "1.234,56") = Cell.num (123456 / 100) ∧
    to_float_cl (Cell.str "0,5") = Cell.num (5 / 10) ∧
    to_float_cl (Cell.str "") = Cell.na ∧
    to_float_cl (Cell.str "-") = Cell.na ∧
    to_float_cl (Cell.str "null") = Cell.na ∧
    to_float_cl Cell.na = Cell.na ∧
    ∀ x : Cell, to_float_cl x = Cell.na ∨ ∃ q : ℚ, to_float_cl x = Cell.num q := by
  refine ⟨by decide, by decide, by decide, by decide, by decide, rfl, ?_⟩
  intro x
  cases x with
  | na => exact Or.inl rfl
  | str s => exact to_float_str_na_or_num s
  | num q => exact to_float_str_na_or_num (pyNumStr q)

/-- C7 (counterexample): with equal summed totals the ranking lists the
communes in ascending key order (the groupby sorted its keys before the
value sort), not in the order of their original occurrence: the first
row's commune is "bb", yet "aa" is ranked first. -/
theorem C7_counterexample :
    getCol tTie "comuna" = [Cell.str "bb", Cell.str "aa"] ∧
    console_top10 tTie = [("aa", 5), ("bb", 5)] ∧
    console_top10 tTie ≠ [("bb", 5), ("aa", 5)] := by
  refine ⟨by decide, by decide, by decide⟩

/-- C9 (counterexample): the U+00A0 removal of the key cleaning (app.py
line 67) runs after the blank and sentinel test of line 62, so a commune
written as the word null broken by a non breaking space survives
cleaning as the literal text "null" in the cleaned table, violating the
invariant as stated. -/
theorem C9_counterexample :
    records_to_df inNbspNull = Except.ok [("comuna", [Cell.str "null"])] := by decide

theorem zipWith_congr_mem {α β γ : Type} (f g : α → β → γ) (l₁ : List α) :
    ∀ l₂ : List β, (∀ a ∈ l₁, ∀ b ∈ l₂, f a b = g a b) →
      List.zipWith f l₁ l₂ = List.zipWith g l₁ l₂ := by
  induction l₁ with
  | nil => intro l₂ h; rfl
  | cons a l ih =>
    intro l₂ h
    cases l₂ with
    | nil => rfl
    | cons b l₂ =>
      simp only [List.zipWith_cons_cons]
      rw [h a (by simp) b (by simp),
        ih l₂ (fun x hx y hy => h x (by simp [hx]) y (by simp [hy]))]

theorem hasCol_append (t₁ t₂ : Table) (c : String) :
    hasCol (t₁ ++ t₂) c = (hasCol t₁ c || hasCol t₂ c) := by
  simp [hasCol, List.any_append]

theorem find?_eq_none_of_hasCol_false (t : Table) (c : String)
    (h : hasCol t c = false) : t.find? (fun p => p.1 == c) = none := by
  rw [List.find?_eq_none]
  intro p hp
  simp only [hasCol, List.any_eq_false] at h
  exact fun hb => h p hp hb

theorem getCol_append_self (t : Table) (c : String) (col : Col)
    (h : hasCol t c = false) : getCol (t ++ [(c, col)]) c = col := by
  simp only [getCol, List.find?_append, find?_eq_none_of_hasCol_false t c h,
    Option.none_orElse]
  simp [List.find?]

theorem hasCol_singleton (c : String) (col : Col) : hasCol [(c, col)] c = true := by
  simp [hasCol]

theorem cellAdd_fillna0 (a b : Cell) (ha : isStrCell a = false)
    (hb : isStrCell b = false) :
    cellAdd (fillna0 a) (fillna0 b) = Cell.num (q0 a + q0 b) := by
  cases a <;> cases b <;> simp_all [cellAdd, fillna0, q0, isStrCell]

/-- C4: the derived total column `monto_m` is present after the
derivation step exactly when it was already present or both gender
amount columns are; a present column is left untouched (the whole frame
is unchanged); and when derived it is the element-wise sum of the two
gender amounts with missing read as zero on each side. -/
theorem C4_monto_m_derivation (t : Table) :
    (hasCol (addMontoM t) "monto_m" = true ↔
      (hasCol t "monto_m" = true ∨
        (hasCol t "mtohombre" = true ∧ hasCol t "mtomujer" = true))) ∧
    (hasCol t "monto_m" = true → addMontoM t = t) ∧
    (hasCol t "monto_m" = false → hasCol t "mtohombre" = true →
      hasCol t "mtomujer" = true →
      numericCol (getCol t "mtohombre") = true →
      numericCol (getCol t "mtomujer") = true →
      getCol (addMontoM t) "monto_m" =
        List.zipWith (fun a b => Cell.num (q0 a + q0 b))
          (getCol t "mtohombre") (getCol t "mtomujer")) := by
  refine ⟨?_, ?_, ?_⟩
  · by_cases h1 : hasCol t "monto_m" <;>
      by_cases h2 : hasCol t "mtohombre" <;>
      by_cases h3 : hasCol t "mtomujer" <;>
      simp [addMontoM, h1, h2, h3, hasCol_append, hasCol_singleton]
  · intro h1
    simp [addMontoM, h1]
  · intro h1 h2 h3 hn1 hn2
    have hcond : addMontoM t = t ++ [("monto_m",
        List.zipWith (fun a b => cellAdd (fillna0 a) (fillna0 b))
          (getCol t "mtohombre") (getCol t "mtomujer"))] := by
      simp [addMontoM, h1, h2, h3]
    rw [hcond, getCol_append_self t _ _ h1]
    refine zipWith_congr_mem _ _ _ _ ?_
    intro a ha b hb
    simp only [numericCol, List.all_eq_true] at hn1 hn2
    exact cellAdd_fillna0 a b (by simpa using hn1 a ha) (by simpa using hn2 b hb)

theorem C4_monto_m_derivation_witness :
    getCol (addMontoM tC4) "monto_m" = [Cell.num 100] ∧
    hasCol (addMontoM tC4) "monto_m" = true := by
  have h := C4_monto_m_derivation tC4
  constructor
  · have h3 := h.2.2 (by decide) (by decide) (by decide) (by decide) (by decide)
    rw [h3]
    decide
  · exact (h.1).mpr (Or.inr ⟨by decide, by decide⟩)

theorem lexLt_irrefl (a : List Char) : lexLt a a = false := by
  induction a with
  | nil => rfl
  | cons x xs ih => simp [lexLt, ih]

theorem lexLt_trans : ∀ a b c : List Char,
    lexLt a b = true → lexLt b c = true → lexLt a c = true
  | [], [], _, hab, _ => by simp [lexLt] at hab
  | [], _ :: _, [], _, hbc => by simp [lexLt] at hbc
  | [], _ :: _, _ :: _, _, _ => by simp [lexLt]
  | _ :: _, [], _, hab, _ => by simp [lexLt] at hab
  | _ :: _, _ :: _, [], _, hbc => by simp [lexLt] at hbc
  | x :: xs, y :: ys, z :: zs, hab, hbc => by
    simp only [lexLt] at hab hbc ⊢
    split at hab
    · rename_i h1
      split at hbc
      · rename_i h2
        simp [Nat.lt_trans h1 h2]
      · split at hbc
        · exact absurd hbc (by simp)
        · rename_i h2 h3
          have : x.toNat < z.toNat := by omega
          simp [this]
    · split at hab
      · exact absurd hab (by simp)
      · rename_i h1 h2
        split at hbc
        · rename_i h3
          have : x.toNat < z.toNat := by omega
          simp [this]
        · split at hbc
          · exact absurd hbc (by simp)
          · rename_i h3 h4
            have h5 : ¬ x.toNat < z.toNat := by omega
            have h6 : ¬ z.toNat < x.toNat := by omega
            simp only [h5, h6, if_false]
            exact lexLt_trans xs ys zs hab hbc

theorem lexLt_asymm (a b : List Char) (h : lexLt a b = true) :
    lexLt b a = false := by
  by_contra hc
  have hba : lexLt b a = true := by
    cases hx : lexLt b a
    · exact absurd hx hc
    · rfl
  have := lexLt_trans a b a h hba
  rw [lexLt_irrefl] at this
  exact Bool.noConfusion this

theorem char_toNat_inj {a b : Char} (h : a.toNat = b.toNat) : a = b :=
  Char.ext (by
    have : a.val.toNat = b.val.toNat := h
    exact UInt32.toNat.inj this)

theorem lexLt_total (a : List Char) : ∀ b,
    lexLt a b = true ∨ a = b ∨ lexLt b a = true := by
  induction a with
  | nil =>
    intro b
    cases b with
    | nil => exact Or.inr (Or.inl rfl)
    | cons y ys => exact Or.inl (by simp [lexLt])
  | cons x xs ih =>
    intro b
    cases b with
    | nil => exact Or.inr (Or.inr (by simp [lexLt]))
    | cons y ys =>
      rcases Nat.lt_trichotomy x.toNat y.toNat with h | h | h
      · exact Or.inl (by simp [lexLt, h])
      · have hxy : x = y := char_toNat_inj h
        rcases ih ys with h2 | h2 | h2
        · exact Or.inl (by simp [lexLt, h, Nat.lt_irrefl, hxy, h2])
        · exact Or.inr (Or.inl (by rw [hxy, h2]))
        · refine Or.inr (Or.inr ?_)
          simp [lexLt, hxy, Nat.lt_irrefl, h2]
      · exact Or.inr (Or.inr (by simp [lexLt, h]))

theorem str_toList_inj {a b : String} (h : a.toList = b.toList) : a = b := by
  cases a
  cases b
  exact congrArg String.mk (by simpa [String.toList] using h)

theorem strLt_not_lt_trans (a b c : String) (h1 : strLt b a = false)
    (h2 : strLt c b = false) : strLt c a = false := by
  by_contra hc
  have hca : strLt c a = true := by
    cases hx : strLt c a
    · exact absurd hx hc
    · rfl
  rcases lexLt_total a.toList b.toList with h | h | h
  · have := lexLt_trans c.toList a.toList b.toList hca h
    exact absurd this (by simpa [strLt] using h2)
  · rw [str_toList_inj h] at hca
    exact absurd hca (by simpa [strLt] using h2)
  · exact absurd h (by simpa [strLt] using h1)

theorem strLt_asymm (a b : String) (h : strLt a b = true) : strLt b a = false :=
  lexLt_asymm _ _ h

theorem strLt_irrefl (a : String) : strLt a a = false :=
  lexLt_irrefl _

theorem insertAsc_perm (a : String) (l : List String) :
    List.Perm (insertAsc a l) (a :: l) := by
  induction l with
  | nil => exact List.Perm.refl _
  | cons b l ih =>
    simp only [insertAsc]
    split
    · exact ((ih.cons b).trans (List.Perm.swap a b l))
    · exact List.Perm.refl _

theorem sortStr_perm (l : List String) : List.Perm (sortStr l) l := by
  induction l with
  | nil => exact List.Perm.refl _
  | cons a l ih => exact (insertAsc_perm a (sortStr l)).trans (ih.cons a)

theorem insertAsc_sorted (a : String) (l : List String)
    (h : l.Pairwise (fun x y => strLt y x = false)) :
    (insertAsc a l).Pairwise (fun x y => strLt y x = false) := by
  induction l with
  | nil => simp [insertAsc]
  | cons b l ih =>
    simp only [insertAsc]
    rw [List.pairwise_cons] at h
    split
    · rename_i hba
      rw [List.pairwise_cons]
      refine ⟨?_, ih h.2⟩
      intro y hy
      rcases List.mem_cons.mp ((insertAsc_perm a l).mem_iff.mp hy) with rfl | hyl
      · exact strLt_asymm _ _ hba
      · exact h.1 y hyl
    · rename_i hba
      rw [List.pairwise_cons]
      refine ⟨?_, List.pairwise_cons.mpr h⟩
      intro y hy
      rcases List.mem_cons.mp hy with rfl | hyl
      · simpa using hba
      · exact strLt_not_lt_trans a b y (by simpa using hba) (h.1 y hyl)

theorem sortStr_sorted (l : List String) :
    (sortStr l).Pairwise (fun x y => strLt y x = false) := by
  induction l with
  | nil => simp [sortStr]
  | cons a l ih => exact insertAsc_sorted a (sortStr l) ih

theorem mem_dedupFirstAux {α : Type} [DecidableEq α] (l : List α) :
    ∀ (seen : List α) (x : α),
      x ∈ dedupFirstAux seen l ↔ x ∈ l ∧ x ∉ seen := by
  induction l with
  | nil => intro seen x; simp [dedupFirstAux]
  | cons a l ih =>
    intro seen x
    simp only [dedupFirstAux]
    split
    · rename_i ha
      rw [ih]
      constructor
      · rintro ⟨hx, hs⟩
        exact ⟨List.mem_cons_of_mem a hx, hs⟩
      · rintro ⟨hmem, hs⟩
        rcases List.mem_cons.mp hmem with rfl | hx
        · exact absurd ha hs
        · exact ⟨hx, hs⟩
    · rename_i ha
      constructor
      · intro hmem
        rcases List.mem_cons.mp hmem with rfl | hmem2
        · exact ⟨List.mem_cons_self _ _, ha⟩
        · obtain ⟨hx, hs⟩ := (ih _ x).mp hmem2
          exact ⟨List.mem_cons_of_mem a hx,
            fun hxs => hs (List.mem_cons_of_mem a hxs)⟩
      · rintro ⟨hmem, hs⟩
        rcases List.mem_cons.mp hmem with rfl | hx
        · exact List.mem_cons_self _ _
        · by_cases hxa : x = a
          · subst hxa; exact List.mem_cons_self _ _
          · refine List.mem_cons_of_mem a ((ih _ x).mpr ⟨hx, ?_⟩)
            intro hxs
            rcases List.mem_cons.mp hxs with h1 | h1
            · exact hxa h1
            · exact hs h1

theorem nodup_dedupFirstAux {α : Type} [DecidableEq α] (l : List α) :
    ∀ seen : List α, (dedupFirstAux seen l).Nodup := by
  induction l with
  | nil => intro seen; simp [dedupFirstAux]
  | cons a l ih =>
    intro seen
    simp only [dedupFirstAux]
    split
    · exact ih seen
    · rw [List.nodup_cons]
      refine ⟨?_, ih (a :: seen)⟩
      rw [mem_dedupFirstAux]
      rintro ⟨-, hns⟩
      exact hns (List.mem_cons_self _ _)

theorem mem_dedupFirst {α : Type} [DecidableEq α] (l : List α) (x : α) :
    x ∈ dedupFirst l ↔ x ∈ l := by
  rw [dedupFirst, mem_dedupFirstAux]
  simp

theorem nodup_dedupFirst {α : Type} [DecidableEq α] (l : List α) :
    (dedupFirst l).Nodup := nodup_dedupFirstAux l []

theorem groupKeys_nodup (col : Col) : (groupKeys col).Nodup :=
  ((sortStr_perm _).nodup_iff).mpr (nodup_dedupFirst _)

/-- The group keys come out pairwise strictly ascending. -/
theorem groupKeys_strict (col : Col) :
    (groupKeys col).Pairwise (fun x y => strLt x y = true) := by
  have hs := sortStr_sorted (dedupFirst (strKeys col))
  have hn : (groupKeys col).Nodup := groupKeys_nodup col
  rw [groupKeys] at hn ⊢
  have hcomb := hs.and hn
  refine hcomb.imp ?_
  intro a b hab
  obtain ⟨h1, h2⟩ := hab
  rcases lexLt_total a.toList b.toList with h | h | h
  · exact h
  · exact absurd (str_toList_inj h) h2
  · exact absurd h (by simpa [strLt] using h1)

theorem insertDesc_perm (x : String × ℚ) (l : List (String × ℚ)) :
    List.Perm (insertDesc x l) (x :: l) := by
  induction l with
  | nil => exact List.Perm.refl _
  | cons y l ih =>
    simp only [insertDesc]
    split
    · exact List.Perm.refl _
    · exact ((ih.cons y).trans (List.Perm.swap x y l))

theorem sortDesc_perm (l : List (String × ℚ)) : List.Perm (sortDesc l) l := by
  induction l with
  | nil => exact List.Perm.refl _
  | cons x l ih => exact (insertDesc_perm x (sortDesc l)).trans (ih.cons x)

theorem insertDesc_sorted (x : String × ℚ) (l : List (String × ℚ))
    (h : l.Pairwise (fun a b => b.2 ≤ a.2)) :
    (insertDesc x l).Pairwise (fun a b => b.2 ≤ a.2) := by
  induction l with
  | nil => simp [insertDesc]
  | cons y l ih =>
    simp only [insertDesc]
    rw [List.pairwise_cons] at h
    split
    · rename_i hyx
      rw [List.pairwise_cons]
      refine ⟨?_, List.pairwise_cons.mpr h⟩
      intro w hw
      rcases List.mem_cons.mp hw with rfl | hwl
      · exact hyx
      · exact le_trans (h.1 w hwl) hyx
    · rename_i hyx
      rw [List.pairwise_cons]
      refine ⟨?_, ih h.2⟩
      intro w hw
      rcases List.mem_cons.mp ((insertDesc_perm x l).mem_iff.mp hw) with rfl | hwl
      · exact le_of_lt (lt_of_not_le hyx)
      · exact h.1 w hwl

theorem sortDesc_sorted (l : List (String × ℚ)) :
    (sortDesc l).Pairwise (fun a b => b.2 ≤ a.2) := by
  induction l with
  | nil => simp [sortDesc]
  | cons x l ih => exact insertDesc_sorted x (sortDesc l) ih

/-- Stability of the descending sort for the tie-breaking statement: a
relation that holds automatically between pairs of distinct values is
preserved by the sort. -/
theorem insertDesc_pairwise_tie (S : String × ℚ → String × ℚ → Prop)
    (x : String × ℚ) (l : List (String × ℚ))
    (hl : l.Pairwise (fun a b => a.2 = b.2 → S a b))
    (hx : ∀ z ∈ l, x.2 = z.2 → S x z) :
    (insertDesc x l).Pairwise (fun a b => a.2 = b.2 → S a b) := by
  induction l with
  | nil => simp [insertDesc]
  | cons y l ih =>
    simp only [insertDesc]
    rw [List.pairwise_cons] at hl
    split
    · rename_i hyx
      rw [List.pairwise_cons]
      exact ⟨hx, List.pairwise_cons.mpr hl⟩
    · rename_i hyx
      rw [List.pairwise_cons]
      refine ⟨?_, ih hl.2 (fun z hz => hx z (List.mem_cons_of_mem y hz))⟩
      intro w hw
      rcases List.mem_cons.mp ((insertDesc_perm x l).mem_iff.mp hw) with rfl | hwl
      · intro heq
        exact absurd (le_of_eq heq) hyx
      · exact hl.1 w hwl

theorem sortDesc_pairwise_tie (S : String × ℚ → String × ℚ → Prop)
    (l : List (String × ℚ))
    (h : l.Pairwise (fun a b => a.2 = b.2 → S a b)) :
    (sortDesc l).Pairwise (fun a b => a.2 = b.2 → S a b) := by
  induction l with
  | nil => simp [sortDesc]
  | cons x l ih =>
    rw [List.pairwise_cons] at h
    exact insertDesc_pairwise_tie S x (sortDesc l) (ih h.2)
      (fun z hz => h.1 z ((sortDesc_perm l).mem_iff.mp hz))

/-- C6: with pairwise distinct group totals, the static report ranking
has exactly min(k, 10) entries and the interactive ranking exactly
min(k, 20), both in strictly descending total order, where k is the
number of distinct communes (the length of the grouped pair list). -/
theorem C6_topn_truncation (t : Table)
    (hc : hasCol t "comuna" = true) (hm : hasCol t "monto_m" = true)
    (hdist : ((rankPairs t).map Prod.snd).Nodup) :
    ((console_top10 t).length = min (rankPairs t).length 10 ∧
      (console_top10 t).Pairwise (fun a b => b.2 < a.2)) ∧
    ((ui_top20 t).length = min (rankPairs t).length 20 ∧
      (ui_top20 t).Pairwise (fun a b => b.2 < a.2)) := by
  have hperm := sortDesc_perm (rankPairs t)
  have hlen : (sortDesc (rankPairs t)).length = (rankPairs t).length :=
    hperm.length_eq
  have hsorted := sortDesc_sorted (rankPairs t)
  have hnodup : ((sortDesc (rankPairs t)).map Prod.snd).Nodup :=
    ((hperm.map Prod.snd).nodup_iff).mpr hdist
  have hne : (sortDesc (rankPairs t)).Pairwise (fun a b => a.2 ≠ b.2) :=
    List.pairwise_map.mp hnodup
  have hstrict : (sortDesc (rankPairs t)).Pairwise (fun a b => b.2 < a.2) :=
    (hsorted.and hne).imp (fun h => lt_of_le_of_ne h.1 (Ne.symm h.2))
  refine ⟨⟨?_, ?_⟩, ?_, ?_⟩
  · simp only [console_top10, hc, hm, Bool.and_self, if_true, rankComunas]
    rw [List.length_take, hlen, Nat.min_comm]
  · simp only [console_top10, hc, hm, Bool.and_self, if_true, rankComunas]
    exact List.Pairwise.sublist (List.take_sublist _ _) hstrict
  · simp only [ui_top20, hc, hm, Bool.and_self, if_true, rankComunas]
    rw [List.length_take, hlen, Nat.min_comm]
  · simp only [ui_top20, hc, hm, Bool.and_self, if_true, rankComunas]
    exact List.Pairwise.sublist (List.take_sublist _ _) hstrict

theorem C6_topn_truncation_witness :
    ((console_top10 tC6).length = min (rankPairs tC6).length 10 ∧
      (console_top10 tC6).Pairwise (fun a b => b.2 < a.2)) ∧
    ((ui_top20 tC6).length = min (rankPairs tC6).length 20 ∧
      (ui_top20 tC6).Pairwise (fun a b => b.2 < a.2)) :=
  C6_topn_truncation tC6 (by decide) (by decide) (by decide)

theorem rankPairs_pairwise_keys (t : Table) :
    (rankPairs t).Pairwise (fun a b => strLt a.1 b.1 = true) := by
  rw [rankPairs]
  exact List.pairwise_map.mpr ((groupKeys_strict _).imp (fun h => h))

/-- C7 (amended): in every commune ranking, groups with equal summed
totals appear in ascending commune key order: the groupby sorts its keys
and the descending value sort, modelled as stable, keeps that order
inside ties (numpy's default introsort, which `sort_values` uses, does
not even promise this much).  Ties are not broken by original row order,
see the counterexample. -/
theorem C7_amended_tie_order (t : Table) (n : ℕ) :
    (rankComunas t n).Pairwise (fun a b => a.2 = b.2 → strLt a.1 b.1 = true) ∧
    (console_top10 t).Pairwise (fun a b => a.2 = b.2 → strLt a.1 b.1 = true) ∧
    (ui_top20 t).Pairwise (fun a b => a.2 = b.2 → strLt a.1 b.1 = true) := by
  have base : ∀ m, (rankComunas t m).Pairwise
      (fun a b => a.2 = b.2 → strLt a.1 b.1 = true) := by
    intro m
    rw [rankComunas]
    refine List.Pairwise.sublist (List.take_sublist _ _) ?_
    refine sortDesc_pairwise_tie _ _ ?_
    refine (rankPairs_pairwise_keys t).imp ?_
    intro a b h _
    exact h
  refine ⟨base n, ?_, ?_⟩
  · rw [console_top10]
    split
    · exact base 10
    · exact List.Pairwise.nil
  · rw [ui_top20]
    split
    · exact base 20
    · exact List.Pairwise.nil

theorem find?_map_keepFst (f : String → Col → Col) (t : Table) (c : String) :
    (t.map (fun p => (p.1, f p.1 p.2))).find? (fun p => p.1 == c) =
      (t.find? (fun p => p.1 == c)).map (fun p => (p.1, f p.1 p.2)) := by
  rw [List.find?_map]
  rfl

theorem getCol_mapCols (f : String → Col → Col) (t : Table) (c : String)
    (hf : f c [] = []) :
    getCol (t.map (fun p => (p.1, f p.1 p.2))) c = f c (getCol t c) := by
  rw [getCol, find?_map_keepFst]
  cases hfind : t.find? (fun p => p.1 == c) with
  | none => simp [getCol, hfind, hf]
  | some p =>
    have hp : p.1 = c := by simpa using List.find?_some hfind
    simp [getCol, hfind, hp]

theorem hasCol_mapCols (f : String → Col → Col) (t : Table) (c : String) :
    hasCol (t.map (fun p => (p.1, f p.1 p.2))) c = hasCol t c := by
  rw [hasCol, List.any_map]
  rfl

theorem getCol_filterRows (t : Table) (mask : List Bool) (c : String) :
    getCol (filterRows t mask) c = filterMask mask (getCol t c) := by
  exact getCol_mapCols (fun _ col => filterMask mask col) t c
    (by simp [filterMask])

theorem getCol_dropRow (t : Table) (i : ℕ) (c : String) :
    getCol (dropRow t i) c = (getCol t c).eraseIdx i := by
  exact getCol_mapCols (fun _ col => col.eraseIdx i) t c (by simp)

theorem hasCol_dropRow (t : Table) (i : ℕ) (c : String) :
    hasCol (dropRow t i) c = hasCol t c :=
  hasCol_mapCols (fun _ col => col.eraseIdx i) t c

theorem map_eraseIdx {α β : Type} (f : α → β) (l : List α) :
    ∀ i : ℕ, (l.eraseIdx i).map f = (l.map f).eraseIdx i := by
  induction l with
  | nil => intro i; rfl
  | cons a l ih =>
    intro i
    cases i with
    | zero => rfl
    | succ j =>
      simp only [List.eraseIdx_cons_succ, List.map_cons, ih]

theorem filterMask_cons (b : Bool) (m : List Bool) (c : Cell) (cs : Col) :
    filterMask (b :: m) (c :: cs) = (if b then [c] else []) ++ filterMask m cs := by
  cases b <;> simp [filterMask]

theorem filterMask_eraseIdx : ∀ (i : ℕ) (mask : List Bool) (col : Col),
    mask[i]? = some false → mask.length = col.length →
    filterMask (mask.eraseIdx i) (col.eraseIdx i) = filterMask mask col := by
  intro i
  induction i with
  | zero =>
    intro mask col hm hlen
    cases mask with
    | nil => simp at hm
    | cons b m =>
      cases col with
      | nil => simp at hlen
      | cons c cs =>
        have hb : b = false := by simpa using hm
        subst hb
        simp [filterMask, List.eraseIdx]
  | succ j ih =>
    intro mask col hm hlen
    cases mask with
    | nil => simp at hm
    | cons b m =>
      cases col with
      | nil => simp at hlen
      | cons c cs =>
        have hm' : m[j]? = some false := by simpa using hm
        have hlen' : m.length = cs.length := by simpa using hlen
        simp only [List.eraseIdx_cons_succ]
        rw [filterMask_cons, filterMask_cons, ih m cs hm' hlen']

theorem colSum_eraseIdx (col : Col) : ∀ i : ℕ,
    colSum col = colSum (col.eraseIdx i) + q0 (col.getD i Cell.na) := by
  induction col with
  | nil =>
    intro i
    simp [colSum, q0, List.eraseIdx]
  | cons c cs ih =>
    intro i
    cases i with
    | zero =>
      simp only [List.eraseIdx_cons_zero, List.getD_cons_zero, colSum,
        List.map_cons, List.sum_cons]
      ring
    | succ j =>
      simp only [List.eraseIdx_cons_succ, List.getD_cons_succ, colSum,
        List.map_cons, List.sum_cons]
      have h2 := ih j
      simp only [colSum] at h2 ⊢
      rw [h2]
      ring

theorem getCol_eq_nil_of_hasCol_false (t : Table) (c : String)
    (h : hasCol t c = false) : getCol t c = [] := by
  rw [getCol, find?_eq_none_of_hasCol_false t c h]

theorem console_sum_dropRow (t : Table) (i : ℕ) (c : String) :
    (if hasCol t c then colSum (getCol t c) else 0) =
      (if hasCol t c then colSum ((getCol t c).eraseIdx i) else 0) +
        q0 ((getCol t c).getD i Cell.na) := by
  by_cases h : hasCol t c = true
  · simp only [h, if_true]
    exact colSum_eraseIdx _ i
  · have hb : hasCol t c = false := by simpa using h
    rw [getCol_eq_nil_of_hasCol_false t c hb]
    simp [hb, q0]

theorem rankPairs_dropRow (t : Table) (i : ℕ)
    (hna : (getCol t "comuna")[i]? = some Cell.na)
    (hlen : (getCol t "monto_m").length = (getCol t "comuna").length) :
    rankPairs (dropRow t i) = rankPairs t := by
  have hmask : ((getCol t "comuna").map (fun c => !(isNaCell c)))[i]? =
      some false := by
    rw [List.getElem?_map, hna]
    rfl
  have h1 : ((getCol t "comuna").map (fun c => !(isNaCell c))).length =
      (getCol t "comuna").length := List.length_map _ _
  have h2 : ((getCol t "comuna").map (fun c => !(isNaCell c))).length =
      (getCol t "monto_m").length := by rw [h1, hlen]
  simp only [rankPairs, getCol_filterRows, getCol_dropRow, map_eraseIdx]
  rw [filterMask_eraseIdx i _ _ hmask h1, filterMask_eraseIdx i _ _ hmask h2]

/-- C5: a row whose commune is missing contributes its amounts to the
scalar sums but never to the commune rankings: dropping such a row
leaves both rankings unchanged, while each scalar sum decomposes as the
sum without that row plus the row's own amount (a missing amount
contributing zero, exactly the skip-missing sum). -/
theorem C5_missing_comuna_row (t : Table) (i : ℕ)
    (hna : (getCol t "comuna")[i]? = some Cell.na)
    (hlen : (getCol t "monto_m").length = (getCol t "comuna").length) :
    console_top10 (dropRow t i) = console_top10 t ∧
    ui_top20 (dropRow t i) = ui_top20 t ∧
    console_th t = console_th (dropRow t i) +
      q0 ((getCol t "mtohombre").getD i Cell.na) ∧
    console_tm t = console_tm (dropRow t i) +
      q0 ((getCol t "mtomujer").getD i Cell.na) ∧
    console_tg t = console_tg (dropRow t i) +
      (if hasCol t "monto_m" then q0 ((getCol t "monto_m").getD i Cell.na)
       else q0 ((getCol t "mtohombre").getD i Cell.na) +
         q0 ((getCol t "mtomujer").getD i Cell.na)) := by
  have hrp := rankPairs_dropRow t i hna hlen
  have hth : console_th t = console_th (dropRow t i) +
      q0 ((getCol t "mtohombre").getD i Cell.na) := by
    rw [console_th, console_th, hasCol_dropRow, getCol_dropRow]
    exact console_sum_dropRow t i "mtohombre"
  have htm : console_tm t = console_tm (dropRow t i) +
      q0 ((getCol t "mtomujer").getD i Cell.na) := by
    rw [console_tm, console_tm, hasCol_dropRow, getCol_dropRow]
    exact console_sum_dropRow t i "mtomujer"
  refine ⟨?_, ?_, hth, htm, ?_⟩
  · rw [console_top10, console_top10, hasCol_dropRow, hasCol_dropRow,
      rankComunas, rankComunas, hrp]
  · rw [ui_top20, ui_top20, hasCol_dropRow, hasCol_dropRow,
      rankComunas, rankComunas, hrp]
  · rw [console_tg, console_tg, hasCol_dropRow, getCol_dropRow]
    by_cases h : hasCol t "monto_m" = true
    · simp only [h, if_true]
      exact colSum_eraseIdx _ i
    · have hb : hasCol t "monto_m" = false := by simpa using h
      simp only [hb, Bool.false_eq_true, if_false]
      rw [hth, htm]
      ring

theorem C5_missing_comuna_row_witness :
    console_top10 (dropRow tC5 1) = console_top10 tC5 ∧
    console_th tC5 = console_th (dropRow tC5 1) +
      q0 ((getCol tC5 "mtohombre").getD 1 Cell.na) := by
  have h := C5_missing_comuna_row tC5 1 (by decide) (by decide)
  exact ⟨h.1, h.2.2.1⟩

theorem string_mk_toList (s : String) : String.mk s.toList = s := by
  cases s
  rfl

theorem dropWhile_all_false {α : Type} (p : α → Bool) (l : List α)
    (h : ∀ c ∈ l, p c = false) : l.dropWhile p = l := by
  cases l with
  | nil => rfl
  | cons a l => simp [List.dropWhile_cons, h a (List.mem_cons_self a l)]

theorem pyStrip_eq_self (s : String)
    (h : ∀ c ∈ s.toList, isPySpace c = false) : pyStrip s = s := by
  rw [pyStrip, dropWhile_all_false _ _ h,
    dropWhile_all_false _ _ (fun c hc => h c (List.mem_reverse.mp hc)),
    List.reverse_reverse, string_mk_toList]

theorem isDigit_toNat {c : Char} (h : c.isDigit = true) :
    48 ≤ c.toNat ∧ c.toNat ≤ 57 := by
  simp [Char.isDigit] at h
  exact h

theorem isPySpace_false_of_range {c : Char} (h1 : 44 ≤ c.toNat)
    (h2 : c.toNat ≤ 57) : isPySpace c = false := by
  simp only [isPySpace]
  simp only [Bool.or_eq_false_iff, Bool.and_eq_false_iff,
    decide_eq_false_iff_not]
  omega

theorem char_ne_of_toNat_ne {c d : Char} (h : c.toNat ≠ d.toNat) : c ≠ d :=
  fun he => h (congrArg Char.toNat he)

theorem span_all_true {α : Type} (p : α → Bool) (l : List α)
    (h : ∀ c ∈ l, p c = true) : l.span p = (l, []) := by
  rw [List.span_eq_take_drop, List.takeWhile_eq_self_iff.mpr h,
    List.dropWhile_eq_nil_iff.mpr (fun x hx => h x hx)]

theorem digitsVal_eq_digitsNat (l : List Char) :
    digitsVal l = (digitsNat l : ℚ) := by
  have aux : ∀ (l : List Char) (a : ℕ),
      l.foldl (fun acc c => acc * 10 + ((c.toNat - 48 : ℕ) : ℚ)) (a : ℚ) =
        ((l.foldl (fun acc c => acc * 10 + (c.toNat - 48)) a : ℕ) : ℚ) := by
    intro l
    induction l with
    | nil => intro a; rfl
    | cons c cs ih =>
      intro a
      simp only [List.foldl_cons]
      have : ((a : ℚ) * 10 + ((c.toNat - 48 : ℕ) : ℚ)) =
          ((a * 10 + (c.toNat - 48) : ℕ) : ℚ) := by push_cast; ring
      rw [this, ih]
  have := aux l 0
  simpa [digitsVal, digitsNat] using this

theorem pyFloat?_digits (l : List Char) (hne : l ≠ [])
    (h : ∀ c ∈ l, c.isDigit = true) :
    pyFloat? (String.mk l) = some ((digitsNat l : ℕ) : ℚ) := by
  have htl : (String.mk l).toList = l := rfl
  have hsign : readSign l = (1, l) := by
    cases l with
    | nil => rfl
    | cons c cs =>
      have hd := isDigit_toNat (h c (List.mem_cons_self c cs))
      rw [readSign]
      rw [if_neg (char_ne_of_toNat_ne (by simp; omega)),
        if_neg (char_ne_of_toNat_ne (by simp; omega))]
  have hspan : l.span Char.isDigit = (l, []) := span_all_true _ _ h
  simp only [pyFloat?, htl, hsign, hspan]
  rw [if_neg hne]
  rw [digitsVal_eq_digitsNat]
  norm_num

/-- C10: `to_float_cl` removes every dot before parsing, wherever it
stands, so dot-decimal inputs are reread as thousands-grouped: "1.5"
parses to 15 and "1234.5" to 12345; in general any string of digits and
dots with at least one digit parses to the value of its digits with all
dots removed. -/
theorem C10_dot_removal :
    to_float_cl (Cell.str "1.5") = Cell.num 15 ∧
    to_float_cl (Cell.str "1234.5") = Cell.num 12345 ∧
    ∀ s : String, (∀ c ∈ s.toList, c.isDigit = true ∨ c = '.') →
      (∃ c ∈ s.toList, c.isDigit = true) →
      to_float_cl (Cell.str s) =
        Cell.num ((digitsNat (s.toList.filter (fun c => c ≠ '.')) : ℕ) : ℚ) := by
  refine ⟨by decide, by decide, ?_⟩
  intro s hall hex
  have hstrip : pyStrip s = s := by
    refine pyStrip_eq_self s ?_
    intro c hc
    rcases hall c hc with h | rfl
    · have := isDigit_toNat h
      exact isPySpace_false_of_range (by omega) (by omega)
    · exact isPySpace_false_of_range (by decide) (by decide)
  have hsent : s ∉ sentinelsTF := by
    intro hmem
    simp only [sentinelsTF, List.mem_cons, List.not_mem_nil, or_false] at hmem
    rcases hmem with rfl | rfl | rfl | rfl | rfl <;> revert hex <;> decide
  have hl'digits : ∀ c ∈ s.toList.filter (fun c => c ≠ '.'),
      c.isDigit = true := by
    intro c hc
    obtain ⟨hcmem, hcne⟩ := List.mem_filter.mp hc
    rcases hall c hcmem with h | rfl
    · exact h
    · simp at hcne
  have hl'ne : s.toList.filter (fun c => c ≠ '.') ≠ [] := by
    obtain ⟨c, hc, hdig⟩ := hex
    intro hnil
    have hd := isDigit_toNat hdig
    have h46 : ('.' : Char).toNat = 46 := rfl
    have hcl : c ∈ s.toList.filter (fun c => c ≠ '.') :=
      List.mem_filter.mpr ⟨hc, by
        simp only [decide_eq_true_eq]
        exact char_ne_of_toNat_ne (by omega)⟩
    rw [hnil] at hcl
    exact List.not_mem_nil c hcl
  have hmap : (s.toList.filter (fun c => c ≠ '.')).map
      (fun c => if c = ',' then '.' else c) = s.toList.filter (fun c => c ≠ '.') := by
    have hcg : ∀ c ∈ s.toList.filter (fun c => c ≠ '.'),
        (if c = ',' then '.' else c) = id c := by
      intro c hc
      have hd := isDigit_toNat (hl'digits c hc)
      have h44 : (',' : Char).toNat = 44 := rfl
      simp only [id]
      rw [if_neg (char_ne_of_toNat_ne (by omega))]
    rw [List.map_congr_left hcg, List.map_id]
  simp only [to_float_cl, to_float_str, hstrip]
  rw [if_neg hsent, hmap, pyFloat?_digits _ hl'ne hl'digits]

theorem C10_dot_removal_witness :
    ((∀ c ∈ "10.2.3".toList, c.isDigit = true ∨ c = '.') ∧
      (∃ c ∈ "10.2.3".toList, c.isDigit = true)) ∧
    to_float_cl (Cell.str "10.2.3") = Cell.num 1023 := by
  refine ⟨⟨by decide, by decide⟩, ?_⟩
  have h := C10_dot_removal.2.2 "10.2.3" (by decide) (by decide)
  rw [h]
  decide

/-- Case analysis of a successful `records_to_df` run: the frame is
empty, or it is the full cleaning pipeline applied to a built table with
collision-free normalized labels. -/
theorem records_to_df_ok_cases (data : JVal) (t : Table)
    (h : records_to_df data = Except.ok t) :
    t = [] ∨ ∃ recs : List RawRec,
      ((((buildTable recs).map (fun p => (normalize_col p.1, p.2))).map
          Prod.fst).Nodup ∧
        t = addMontoM (convertNumerics (cleanKeys (cleanText
          ((buildTable recs).map (fun p => (normalize_col p.1, p.2))))))) := by
  cases data with
  | obj kvs =>
    simp only [records_to_df] at h
    split at h
    · injection h with h
      exact Or.inl h.symm
    · rename_i res heq
      split at h
      · rename_i rkvs
        split at h
        · exact Except.noConfusion h
        · rename_i recs hrl
          split at h
          · injection h with h
            exact Or.inl h.symm
          · split at h
            · rename_i hraw hnd
              injection h with h
              exact Or.inr ⟨recs, hnd, h.symm⟩
            · exact Except.noConfusion h
      · exact Except.noConfusion h
  | null => simp only [records_to_df] at h; injection h with h; exact Or.inl h.symm
  | str s => simp only [records_to_df] at h; injection h with h; exact Or.inl h.symm
  | num q => simp only [records_to_df] at h; injection h with h; exact Or.inl h.symm
  | bool b => simp only [records_to_df] at h; injection h with h; exact Or.inl h.symm
  | arr xs => simp only [records_to_df] at h; injection h with h; exact Or.inl h.symm

theorem mapFst_entryMap (g : String × Col → String × Col)
    (hg : ∀ p, (g p).1 = p.1) (t : Table) :
    (t.map g).map Prod.fst = t.map Prod.fst := by
  rw [List.map_map]
  exact List.map_congr_left (fun p _ => hg p)

theorem cleanTextEntry_fst (p : String × Col) : (cleanTextEntry p).1 = p.1 := rfl

theorem cleanKeysEntry_fst (p : String × Col) : (cleanKeysEntry p).1 = p.1 := by
  rw [cleanKeysEntry]
  split <;> rfl

theorem convertNumericsEntry_fst (p : String × Col) :
    (convertNumericsEntry p).1 = p.1 := by
  rw [convertNumericsEntry]
  split <;> rfl

theorem mapFst_pipeline (t1 : Table) :
    (convertNumerics (cleanKeys (cleanText t1))).map Prod.fst =
      t1.map Prod.fst := by
  rw [convertNumerics, mapFst_entryMap _ convertNumericsEntry_fst,
    cleanKeys, mapFst_entryMap _ cleanKeysEntry_fst,
    cleanText, mapFst_entryMap _ cleanTextEntry_fst]

theorem hasCol_eq_mem (t : Table) (c : String) :
    hasCol t c = true ↔ c ∈ t.map Prod.fst := by
  simp [hasCol, List.any_eq_true, List.mem_map, beq_iff_eq]

theorem normalize_col_chars (s : String) :
    ∀ c ∈ (normalize_col s).toList, allowedChar c = true := by
  intro c hc
  exact (List.mem_filter.mp hc).2

theorem allowedChar_toNat {c : Char} (h : allowedChar c = true) :
    (97 ≤ c.toNat ∧ c.toNat ≤ 122) ∨ (48 ≤ c.toNat ∧ c.toNat ≤ 57) ∨
      c.toNat = 95 := by
  simp only [allowedChar, Bool.or_eq_true, Bool.and_eq_true,
    decide_eq_true_eq] at h
  rcases h with (⟨h1, h2⟩ | ⟨h1, h2⟩) | h1
  · exact Or.inl ⟨h1, h2⟩
  · exact Or.inr (Or.inl ⟨h1, h2⟩)
  · exact Or.inr (Or.inr (congrArg Char.toNat h1))

theorem toLower_of_allowed {c : Char} (h : allowedChar c = true) :
    c.toLower = c := by
  have hb := allowedChar_toNat h
  simp only [Char.toLower]
  rw [if_neg (by omega)]

theorem map_ident {α : Type} (l : List α) : l.map (fun a => a) = l := by
  induction l with
  | nil => rfl
  | cons a l ih => rw [List.map_cons, ih]

theorem normalize_col_fixed (s : String)
    (h : ∀ c ∈ s.toList, allowedChar c = true) : normalize_col s = s := by
  simp only [normalize_col]
  have h1 : s.toList.map Char.toLower = s.toList := by
    rw [List.map_congr_left (fun c hc => toLower_of_allowed (h c hc)),
      map_ident]
  rw [h1]
  have h2 : s.toList.map (fun ch => if ch = ' ' then '_' else ch) =
      s.toList := by
    refine Eq.trans (List.map_congr_left ?_) (map_ident _)
    intro c hc
    have h32 : (' ' : Char).toNat = 32 := rfl
    have hb := allowedChar_toNat (h c hc)
    rw [if_neg (char_ne_of_toNat_ne (by omega))]
  rw [h2, List.filter_eq_self.mpr h, string_mk_toList]

theorem normalize_col_idem (s : String) :
    normalize_col (normalize_col s) = normalize_col s :=
  normalize_col_fixed _ (normalize_col_chars s)

/-- C8: every frame `records_to_df` returns has pairwise distinct column
names made only of characters in the class a-z, 0-9, underscore (hence
lowercase), each a fixed point of normalization; and normalization is
idempotent on every string.  Distinct raw names can collide after
normalization, but the per column loop then raises (see the notes at
`records_to_df`), so such a frame is never returned. -/
theorem C8_column_name_invariant (data : JVal) (t : Table)
    (h : records_to_df data = Except.ok t) :
    (t.map Prod.fst).Nodup ∧
    (∀ n ∈ t.map Prod.fst, ∀ c ∈ n.toList, allowedChar c = true) ∧
    (∀ n ∈ t.map Prod.fst, normalize_col n = n) ∧
    (∀ s : String, normalize_col (normalize_col s) = normalize_col s) := by
  rcases records_to_df_ok_cases data t h with rfl | ⟨recs, hnd, rfl⟩
  · exact ⟨List.nodup_nil, by simp, by simp, normalize_col_idem⟩
  · have hfst1 : ((buildTable recs).map
        (fun p => (normalize_col p.1, p.2))).map Prod.fst =
        (buildTable recs).map (fun p => normalize_col p.1) := by
      rw [List.map_map]
      rfl
    have hpipe := mapFst_pipeline
      ((buildTable recs).map (fun p => (normalize_col p.1, p.2)))
    have hkey : ∀ n ∈ (convertNumerics (cleanKeys (cleanText
        ((buildTable recs).map (fun p => (normalize_col p.1, p.2)))))).map
          Prod.fst,
        (∀ c ∈ n.toList, allowedChar c = true) ∧ normalize_col n = n := by
      intro n hn
      rw [hpipe, hfst1] at hn
      obtain ⟨p, hp, rfl⟩ := List.mem_map.mp hn
      exact ⟨normalize_col_chars _, normalize_col_idem _⟩
    have hmonto : (∀ c ∈ ("monto_m" : String).toList, allowedChar c = true) ∧
        normalize_col "monto_m" = "monto_m" := by decide
    rw [addMontoM]
    split
    · rename_i hcond
      have hnomem : "monto_m" ∉ (convertNumerics (cleanKeys (cleanText
          ((buildTable recs).map (fun p => (normalize_col p.1, p.2)))))).map
            Prod.fst := by
        intro hmem
        have hmem2 := (hasCol_eq_mem _ _).mpr hmem
        simp only [Bool.and_eq_true, Bool.not_eq_true'] at hcond
        rw [hcond.1.1] at hmem2
        exact Bool.noConfusion hmem2
      rw [List.map_append]
      simp only [List.map_cons, List.map_nil]
      refine ⟨?_, ?_, ?_, normalize_col_idem⟩
      · refine List.Nodup.append ?_ (List.nodup_singleton _) ?_
        · rw [hpipe]
          exact hnd
        · rw [List.disjoint_singleton]
          exact hnomem
      · intro n hn
        rcases List.mem_append.mp hn with hn | hn
        · exact (hkey n hn).1
        · rw [List.mem_singleton.mp hn]
          exact hmonto.1
      · intro n hn
        rcases List.mem_append.mp hn with hn | hn
        · exact (hkey n hn).2
        · rw [List.mem_singleton.mp hn]
          exact hmonto.2
    · refine ⟨?_, fun n hn => (hkey n hn).1, fun n hn => (hkey n hn).2,
        normalize_col_idem⟩
      rw [hpipe]
      exact hnd

theorem C8_column_name_invariant_witness :
    (([("mto_hombre", [Cell.num 1]), ("comuna", [Cell.str "x"])] :
        Table).map Prod.fst).Nodup ∧
    (∀ n ∈ ([("mto_hombre", [Cell.num 1]), ("comuna", [Cell.str "x"])] :
        Table).map Prod.fst, ∀ c ∈ n.toList, allowedChar c = true) ∧
    (∀ n ∈ ([("mto_hombre", [Cell.num 1]), ("comuna", [Cell.str "x"])] :
        Table).map Prod.fst, normalize_col n = n) ∧
    (∀ s : String, normalize_col (normalize_col s) = normalize_col s) :=
  C8_column_name_invariant dataC8 _ (by decide)

theorem head?_dropWhile {α : Type} (p : α → Bool) (l : List α) :
    ∀ x, (l.dropWhile p).head? = some x → p x = false := by
  induction l with
  | nil => intro x h; simp at h
  | cons a l ih =>
    intro x h
    rw [List.dropWhile_cons] at h
    split at h
    · exact ih x h
    · rename_i hpa
      injection h with h
      subst h
      exact Bool.eq_false_iff.mpr hpa

theorem dropWhile_eq_self_of_head? {α : Type} (p : α → Bool) (l : List α)
    (h : ∀ x, l.head? = some x → p x = false) : l.dropWhile p = l := by
  cases l with
  | nil => rfl
  | cons a l =>
    rw [List.dropWhile_cons, if_neg]
    simp [h a rfl]

theorem dropWhile_idem {α : Type} (p : α → Bool) (l : List α) :
    (l.dropWhile p).dropWhile p = l.dropWhile p :=
  dropWhile_eq_self_of_head? p _ (head?_dropWhile p l)

theorem getLast?_cons_ne {α : Type} (a : α) (l : List α) (h : l ≠ []) :
    (a :: l).getLast? = l.getLast? := by
  cases l with
  | nil => exact absurd rfl h
  | cons b t => exact List.getLast?_cons_cons

theorem getLast?_dropWhile {α : Type} (p : α → Bool) (l : List α)
    (h : l.dropWhile p ≠ []) : (l.dropWhile p).getLast? = l.getLast? := by
  induction l with
  | nil => exact absurd rfl h
  | cons a l ih =>
    rw [List.dropWhile_cons]
    rw [List.dropWhile_cons] at h
    split
    · rename_i hpa
      rw [if_pos hpa] at h
      have hlne : l ≠ [] := by
        intro hl
        rw [hl] at h
        exact h rfl
      rw [ih h, getLast?_cons_ne a l hlne]
    · rfl

theorem pyStrip_idem (s : String) : pyStrip (pyStrip s) = pyStrip s := by
  rw [pyStrip, pyStrip]
  have htl : (String.mk ((((s.toList.dropWhile isPySpace).reverse.dropWhile
      isPySpace).reverse))).toList =
      ((s.toList.dropWhile isPySpace).reverse.dropWhile isPySpace).reverse :=
    rfl
  rw [htl]
  by_cases hu : (s.toList.dropWhile isPySpace).reverse.dropWhile isPySpace = []
  · rw [hu]
    rfl
  · have hA : (((s.toList.dropWhile isPySpace).reverse.dropWhile
        isPySpace).reverse).dropWhile isPySpace =
        ((s.toList.dropWhile isPySpace).reverse.dropWhile isPySpace).reverse := by
      refine dropWhile_eq_self_of_head? _ _ ?_
      intro x hx
      rw [List.head?_reverse] at hx
      rw [getLast?_dropWhile _ _ hu, List.getLast?_reverse] at hx
      exact head?_dropWhile _ _ x hx
    rw [hA, List.reverse_reverse, dropWhile_idem]

theorem string_mk_eq_empty_iff (l : List Char) : String.mk l = "" ↔ l = [] := by
  constructor
  · intro h
    have := congrArg String.toList h
    simpa using this
  · intro h
    rw [h]

theorem mem_dropWhile_of_not {α : Type} (p : α → Bool) (l : List α) (c : α)
    (hc : c ∈ l) (hp : p c = false) : c ∈ l.dropWhile p := by
  induction l with
  | nil => simp at hc
  | cons a l ih =>
    rw [List.dropWhile_cons]
    rcases List.mem_cons.mp hc with rfl | hcl
    · rw [if_neg (by simp [hp])]
      exact List.mem_cons_self _ _
    · split
      · exact ih hcl
      · exact List.mem_cons_of_mem a hcl

theorem pyStrip_ne_empty (l : List Char) (c : Char) (hc : c ∈ l)
    (hp : isPySpace c = false) : pyStrip (String.mk l) ≠ "" := by
  rw [pyStrip]
  have htl : (String.mk l).toList = l := rfl
  rw [htl, Ne, string_mk_eq_empty_iff]
  intro hnil
  have h1 : c ∈ l.dropWhile isPySpace := mem_dropWhile_of_not _ _ c hc hp
  have h2 : c ∈ (l.dropWhile isPySpace).reverse := List.mem_reverse.mpr h1
  have h3 : c ∈ (l.dropWhile isPySpace).reverse.dropWhile isPySpace :=
    mem_dropWhile_of_not _ _ c h2 hp
  have h4 : c ∈ ((l.dropWhile isPySpace).reverse.dropWhile isPySpace).reverse :=
    List.mem_reverse.mpr h3
  rw [hnil] at h4
  exact List.not_mem_nil c h4

theorem pyStrip_fixed_exists_nonspace (s : String) (hfix : pyStrip s = s)
    (hne : s ≠ "") : ∃ c ∈ s.toList, isPySpace c = false := by
  by_contra hall
  push_neg at hall
  have hws : ∀ c ∈ s.toList, isPySpace c = true := by
    intro c hc
    have := hall c hc
    cases h : isPySpace c
    · exact absurd h this
    · rfl
  have hdw : s.toList.dropWhile isPySpace = [] :=
    List.dropWhile_eq_nil_iff.mpr (fun x hx => by simp [hws x hx])
  have : pyStrip s = "" := by
    rw [pyStrip, hdw]
    rfl
  rw [hfix] at this
  exact hne this

theorem digitChar_toNat {m : ℕ} (h : m < 10) : (digitChar m).toNat = 48 + m := by
  interval_cases m <;> decide

theorem natStr_has_digit (n : ℕ) :
    ∃ c ∈ (natStr n).toList, 48 ≤ c.toNat ∧ c.toNat ≤ 57 := by
  rw [natStr]
  split
  · exact ⟨'0', by decide, by decide⟩
  · rename_i hn
    rw [natDigs, dif_neg hn]
    refine ⟨digitChar (n % 10), ?_, ?_⟩
    · have : (String.mk (natDigs (n / 10) ++ [digitChar (n % 10)])).toList =
          natDigs (n / 10) ++ [digitChar (n % 10)] := rfl
      rw [this]
      exact List.mem_append.mpr (Or.inr (List.mem_singleton.mpr rfl))
    · have hm : n % 10 < 10 := Nat.mod_lt n (by norm_num)
      rw [digitChar_toNat hm]
      omega

theorem string_toList_append (a b : String) :
    (a ++ b).toList = a.toList ++ b.toList := by
  cases a
  cases b
  rfl

theorem pyNumStr_has_digit (q : ℚ) :
    ∃ c ∈ (pyNumStr q).toList, 48 ≤ c.toNat ∧ c.toNat ≤ 57 := by
  have hint : ∀ i : ℤ, ∃ c ∈ (intStr i).toList,
      48 ≤ c.toNat ∧ c.toNat ≤ 57 := by
    intro i
    rw [intStr]
    split
    · obtain ⟨c, hc, hb⟩ := natStr_has_digit i.natAbs
      exact ⟨c, by
        rw [string_toList_append]
        exact List.mem_append.mpr (Or.inr hc), hb⟩
    · exact natStr_has_digit i.natAbs
  rw [pyNumStr]
  split
  · exact hint q.num
  · obtain ⟨c, hc, hb⟩ := hint q.num
    refine ⟨c, ?_, hb⟩
    rw [string_toList_append, string_toList_append]
    exact List.mem_append.mpr (Or.inl (List.mem_append.mpr (Or.inl hc)))

theorem to_float_cl_ne_str (c : Cell) (s : String) :
    to_float_cl c ≠ Cell.str s := by
  intro h
  cases c with
  | na => exact Cell.noConfusion h
  | str s0 =>
    rcases to_float_str_na_or_num s0 with h1 | ⟨q, h1⟩ <;>
      rw [show to_float_cl (Cell.str s0) = to_float_str s0 from rfl, h1] at h <;>
      exact Cell.noConfusion h
  | num q0 =>
    rcases to_float_str_na_or_num (pyNumStr q0) with h1 | ⟨q, h1⟩ <;>
      rw [show to_float_cl (Cell.num q0) = to_float_str (pyNumStr q0) from rfl,
        h1] at h <;>
      exact Cell.noConfusion h

theorem cellAdd_ne_str (a b : Cell) (s : String) :
    cellAdd a b ≠ Cell.str s := by
  cases a <;> cases b <;> simp [cellAdd]

theorem mem_zipWith_shape {α β γ : Type} (f : α → β → γ) (l₁ : List α) :
    ∀ (l₂ : List β) (x : γ), x ∈ List.zipWith f l₁ l₂ → ∃ a b, x = f a b := by
  induction l₁ with
  | nil => intro l₂ x h; simp at h
  | cons a l ih =>
    intro l₂ x h
    cases l₂ with
    | nil => simp at h
    | cons b l₂ =>
      rw [List.zipWith_cons_cons] at h
      rcases List.mem_cons.mp h with rfl | h2
      · exact ⟨a, b, rfl⟩
      · exact ih l₂ x h2

theorem no_str_of_not_objectLike {col : Col} (h : objectLike col = false)
    {s : String} (hs : Cell.str s ∈ col) : False := by
  simp only [objectLike, Bool.or_eq_false_iff, List.any_eq_false] at h
  have := h.1 _ hs
  simp [isStrCell] at this

theorem cleanTextCell_str {c : Cell} {s : String}
    (h : cleanTextCell c = Cell.str s) :
    s ≠ "" ∧ pyStrip s = s ∧ lowerStr s ∉ sentinelsClean := by
  simp only [cleanTextCell] at h
  split at h
  · exact Cell.noConfusion h
  · rename_i hsent
    injection h with h
    subst h
    refine ⟨?_, pyStrip_idem _, hsent⟩
    intro he
    apply hsent
    rw [he]
    decide

theorem cleanKeyCell_str (c : Cell)
    (hstr : ∀ s0 : String, c = Cell.str s0 → s0 ≠ "" ∧ pyStrip s0 = s0) :
    ∀ s : String, cleanKeyCell c = Cell.str s → s ≠ "" ∧ pyStrip s = s := by
  intro s h
  cases c with
  | na => exact Cell.noConfusion h
  | str s0 =>
    obtain ⟨hne, hfix⟩ := hstr s0 rfl
    have hred : cleanKeyCell (Cell.str s0) = Cell.str (pyStrip (String.mk
        (s0.toList.filter (fun ch => ch ≠ '\u00A0')))) := rfl
    rw [hred] at h
    injection h with h
    subst h
    constructor
    · obtain ⟨c0, hc0, hp0⟩ := pyStrip_fixed_exists_nonspace s0 hfix hne
      have hfilter : c0 ∈ s0.toList.filter (fun ch => ch ≠ '\u00A0') := by
        refine List.mem_filter.mpr ⟨hc0, ?_⟩
        simp only [decide_eq_true_eq]
        intro heq
        have hnb : isPySpace '\u00A0' = true := by decide
        rw [heq, hnb] at hp0
        exact Bool.noConfusion hp0
      exact pyStrip_ne_empty _ c0 hfilter hp0
    · exact pyStrip_idem _
  | num q =>
    have hred : cleanKeyCell (Cell.num q) = Cell.str (pyStrip (String.mk
        ((pyNumStr q).toList.filter (fun ch => ch ≠ '\u00A0')))) := rfl
    rw [hred] at h
    injection h with h
    subst h
    constructor
    · obtain ⟨c0, hc0, hb⟩ := pyNumStr_has_digit q
      have hp0 : isPySpace c0 = false :=
        isPySpace_false_of_range (by omega) (by omega)
      have hfilter : c0 ∈ (pyNumStr q).toList.filter (fun ch => ch ≠ '\u00A0') := by
        refine List.mem_filter.mpr ⟨hc0, ?_⟩
        simp only [decide_eq_true_eq]
        have h160 : ('\u00A0' : Char).toNat = 160 := rfl
        exact char_ne_of_toNat_ne (by omega)
      exact pyStrip_ne_empty _ c0 hfilter hp0
    · exact pyStrip_idem _

theorem pipelineEntry_cells (p0 : String × Col) (s : String)
    (hs : Cell.str s ∈
      (convertNumericsEntry (cleanKeysEntry (cleanTextEntry p0))).2) :
    s ≠ "" ∧ pyStrip s = s ∧
      (p0.1 ≠ "comuna" → p0.1 ≠ "region" → lowerStr s ∉ sentinelsClean) := by
  rw [convertNumericsEntry] at hs
  split at hs
  · obtain ⟨c, hc, hcs⟩ := List.mem_map.mp hs
    exact absurd hcs (to_float_cl_ne_str c s)
  · rw [cleanKeysEntry] at hs
    split at hs
    · rename_i hkey
      obtain ⟨c, hc, hcs⟩ := List.mem_map.mp hs
      have hinv : ∀ s0 : String, c = Cell.str s0 →
          s0 ≠ "" ∧ pyStrip s0 = s0 := by
        intro s0 hc0
        subst hc0
        rw [cleanTextEntry] at hc
        simp only at hc
        split at hc
        · obtain ⟨c1, hc1, hc1s⟩ := List.mem_map.mp hc
          obtain ⟨h1, h2, h3⟩ := cleanTextCell_str hc1s
          exact ⟨h1, h2⟩
        · rename_i hobj
          exact absurd hc (fun hmem =>
            no_str_of_not_objectLike (Bool.eq_false_iff.mpr hobj) hmem)
      obtain ⟨h1, h2⟩ := cleanKeyCell_str c hinv s hcs
      refine ⟨h1, h2, ?_⟩
      intro hcom hreg
      exfalso
      have hk : p0.1 ∈ keyCols := hkey
      simp only [keyCols, List.mem_cons, List.not_mem_nil, or_false] at hk
      rcases hk with hk | hk
      · exact hcom hk
      · exact hreg hk
    · rw [cleanTextEntry] at hs
      simp only at hs
      split at hs
      · obtain ⟨c1, hc1, hc1s⟩ := List.mem_map.mp hs
        obtain ⟨h1, h2, h3⟩ := cleanTextCell_str hc1s
        exact ⟨h1, h2, fun _ _ => h3⟩
      · rename_i hobj
        exact absurd hs (fun hmem =>
          no_str_of_not_objectLike (Bool.eq_false_iff.mpr hobj) hmem)

/-- C9 (amended): in every frame `records_to_df` returns, each text cell
is a non-empty string equal to its own strip (so trimmed and never
empty), and outside the two key columns it is never a blank sentinel
literal (none, null, nan in any casing, or empty).  In the comuna and
region columns the sentinel exclusion is lost, because the U+00A0
removal runs after the sentinel test; see the counterexample. -/
theorem C9_amended_text_invariant (data : JVal) (t : Table)
    (h : records_to_df data = Except.ok t) :
    ∀ p ∈ t, ∀ s : String, Cell.str s ∈ p.2 →
      s ≠ "" ∧ pyStrip s = s ∧
        (p.1 ≠ "comuna" → p.1 ≠ "region" → lowerStr s ∉ sentinelsClean) := by
  rcases records_to_df_ok_cases data t h with rfl | ⟨recs, hnd, rfl⟩
  · intro p hp
    simp at hp
  · have hcomp : convertNumerics (cleanKeys (cleanText
        ((buildTable recs).map (fun p => (normalize_col p.1, p.2))))) =
        ((buildTable recs).map (fun p => (normalize_col p.1, p.2))).map
          (fun p0 => convertNumericsEntry (cleanKeysEntry (cleanTextEntry p0))) := by
      rw [cleanText, cleanKeys, convertNumerics, List.map_map, List.map_map]
      rfl
    have main : ∀ p ∈ convertNumerics (cleanKeys (cleanText
        ((buildTable recs).map (fun p => (normalize_col p.1, p.2))))),
        ∀ s : String, Cell.str s ∈ p.2 →
          s ≠ "" ∧ pyStrip s = s ∧
            (p.1 ≠ "comuna" → p.1 ≠ "region" →
              lowerStr s ∉ sentinelsClean) := by
      intro p hp s hs
      rw [hcomp] at hp
      obtain ⟨p0, hp0, rfl⟩ := List.mem_map.mp hp
      have hfst : (convertNumericsEntry (cleanKeysEntry
          (cleanTextEntry p0))).1 = p0.1 := by
        rw [convertNumericsEntry_fst, cleanKeysEntry_fst, cleanTextEntry_fst]
      rw [hfst]
      exact pipelineEntry_cells p0 s hs
    intro p hp s hs
    rw [addMontoM] at hp
    split at hp
    · rcases List.mem_append.mp hp with hp | hp
      · exact main p hp s hs
      · rw [List.mem_singleton] at hp
        subst hp
        obtain ⟨a, b, hab⟩ := mem_zipWith_shape _ _ _ _ hs
        exact absurd hab.symm (cellAdd_ne_str _ _ s)
    · exact main p hp s hs

theorem C9_amended_text_invariant_witness :
    "Melipilla" ≠ "" ∧ pyStrip "Melipilla" = "Melipilla" ∧
      (("comuna", [Cell.str "Melipilla"]).1 ≠ "comuna" →
        ("comuna", [Cell.str "Melipilla"]).1 ≠ "region" →
        lowerStr "Melipilla" ∉ sentinelsClean) :=
  C9_amended_text_invariant dataC9w
    [("comuna", [Cell.str "Melipilla"]), ("detalle", [Cell.str "ok"])]
    (by decide) ("comuna", [Cell.str "Melipilla"]) (by decide)
    "Melipilla" (by decide)
